import Mathlib

/-!
Shallow embedding of the directory-change reconciliation engine of
`src/Explorer++/Explorer++/ShellBrowser/DirectoryModificationHandler.cpp`.

Modelling conventions:
* An `Item` keeps the fields the reconciler reads: the filename stored in
  `wfd.cFileName` and the 64-bit size (`nFileSizeLow`/`nFileSizeHigh`),
  modelled as one `Nat`.
* `m_itemInfoMap` is an association list `List (Nat × Item)` from internal
  index to item data; `m_hListView` is the presentation list, a list of
  entries carrying the internal index (`lParam`) and the selection state.
* `g_iRenamedItem : int` with sentinel `-1` becomes `Option Nat`
  (`none` for `-1`); `g_bNewFileRenamed` becomes a `Bool`.
* Filesystem resolution (`SHParseDisplayName`/`SHBindToParent`,
  `FindFirstFile`, `GetItemInformation`) is external input: each event
  carries the outcome of its own resolution as `Option Nat` (the size
  found for the queried name, `none` when the entity does not exist).
* Presentation-only operations (icons, overlays, column invalidation,
  sorting, grouping, redraw) have no observable effect on the state
  modelled here and are omitted.
-/

structure Item where
  name : String
  size : Nat
  deriving Repr, DecidableEq

/-- A listview row: the internal index stored in its `lParam`, and whether
the row is currently selected (`LVIS_SELECTED`). -/
structure LVEntry where
  id : Nat
  selected : Bool
  deriving Repr, DecidableEq

/-- The filter configuration consulted by `RenameItem`
(`IsFileFiltered`). -/
structure Config where
  isFileFiltered : Item → Bool

/-- The reconciler-owned state of one `ShellBrowser`. -/
structure State where
  itemInfoMap : List (Nat × Item)
  awaitingAddList : List Nat
  listView : List LVEntry
  filesAdded : List String
  fileSelectionList : List String
  totalDirSize : Int
  fileSelectionSize : Int
  newFileRenamed : Bool
  renamedItem : Option Nat
  nextId : Nat
  uniqueFolderId : Nat

def lookupItem (m : List (Nat × Item)) (id : Nat) : Option Item :=
  (m.find? (fun p => p.1 == id)).map (fun p => p.2)

/-- `m_itemInfoMap[internalIndex] = itemInfo`: replace the stored entry, or
insert it when absent (C++ `operator[]` semantics). -/
def setItem (m : List (Nat × Item)) (id : Nat) (it : Item) : List (Nat × Item) :=
  if (m.find? (fun p => p.1 == id)).isSome then
    m.map (fun p => if p.1 == id then (id, it) else p)
  else
    m ++ [(id, it)]

/-- `LocateFileItemIndex`: find the first listview row whose item has the
given filename. -/
def locateFileItemIndex (m : List (Nat × Item)) (lv : List LVEntry)
    (name : String) : Option LVEntry :=
  lv.find? (fun e => (lookupItem m e.id).map Item.name == some name)

/-- `AddItemInternal`. Modelled from the spec: the function body is outside
this excerpt; it assigns a fresh internal id, records the item metadata,
queues the id in the awaiting-insert list, and feeds the item's size to the
aggregate tracker. -/
def AddItemInternal (s : State) (it : Item) : State :=
  { s with
    itemInfoMap := s.itemInfoMap ++ [(s.nextId, it)]
    awaitingAddList := s.awaitingAddList ++ [s.nextId]
    totalDirSize := s.totalDirSize + (it.size : Int)
    nextId := s.nextId + 1 }

/-- `InsertAwaitingItems`. Modelled from the spec: flushes the
awaiting-insert list into the presentation list (new rows unselected) and
clears it. -/
def InsertAwaitingItems (s : State) : State :=
  { s with
    listView := s.listView ++ s.awaitingAddList.map (fun id => ⟨id, false⟩)
    awaitingAddList := [] }

/-- `ShellBrowser::OnFileAdded`: resolve the name against the filesystem;
on success add the item and flush the awaiting list; on failure append the
bare filename to `m_FilesAdded` (the pending-add ledger). -/
def OnFileAdded (s : State) (name : String) (resolution : Option Nat) : State :=
  match resolution with
  | some sz => InsertAwaitingItems (AddItemInternal s ⟨name, sz⟩)
  | none => { s with filesAdded := s.filesAdded ++ [name] }

/-- Whether the listview row holding the given internal index is currently
selected. -/
def rowSelected (lv : List LVEntry) (id : Nat) : Bool :=
  match lv.find? (fun e => e.id == id) with
  | some e => e.selected
  | none => false

/-- `RemoveItem`. Modelled from the spec: subtract the item's size from the
aggregate counters (from the selection counter only when its row is
selected), delete it from the item store and from the presentation list. -/
def RemoveItem (s : State) (id : Nat) : State :=
  match lookupItem s.itemInfoMap id with
  | none => s
  | some it =>
    let selected := rowSelected s.listView id
    { s with
      itemInfoMap := s.itemInfoMap.filter (fun p => p.1 != id)
      listView := s.listView.filter (fun e => e.id != id)
      totalDirSize := s.totalDirSize - (it.size : Int)
      fileSelectionSize :=
        if selected then s.fileSelectionSize - (it.size : Int)
        else s.fileSelectionSize }

/-- `LocateFileItemInternalIndex`. Modelled from the spec: locate the item
by name in the item store and return its internal index. -/
def LocateFileItemInternalIndex (s : State) (name : String) : Option Nat :=
  (s.itemInfoMap.find? (fun p => p.2.name == name)).map (fun p => p.1)

/-- `ShellBrowser::OnFileRemoved`: first check the pending-add ledger and
erase the first matching entry; otherwise locate the item by name and
remove it; otherwise no-op. -/
def OnFileRemoved (s : State) (name : String) : State :=
  if s.filesAdded.contains name then
    { s with filesAdded := s.filesAdded.erase name }
  else
    match LocateFileItemInternalIndex s name with
    | some id => RemoveItem s id
    | none => s

/-- The search `OnFileModified` performs: the listview first
(`LocateFileItemIndex`), then the awaiting-insert list. Returns the
internal index together with the selection state that the handler will see
(`ListView_GetItemState` on index `-1` reports unselected for items found
only in the awaiting list). -/
def findModTarget (s : State) (name : String) : Option (Nat × Bool) :=
  match locateFileItemIndex s.itemInfoMap s.listView name with
  | some e => some (e.id, e.selected)
  | none =>
    match s.awaitingAddList.find?
        (fun id => (lookupItem s.itemInfoMap id).map Item.name == some name) with
    | some id => some (id, false)
    | none => none

/-- `ShellBrowser::OnFileModified`: find the item (listview or awaiting
list), subtract its old size from the counters, re-stat; on success store
and re-add the new size, on failure zero the stored size and stop. -/
def OnFileModified (s : State) (name : String) (restat : Option Nat) : State :=
  match findModTarget s name with
  | none => s
  | some (id, selected) =>
    match lookupItem s.itemInfoMap id with
    | none => s
    | some old =>
      let s1 := { s with
        totalDirSize := s.totalDirSize - (old.size : Int)
        fileSelectionSize :=
          if selected then s.fileSelectionSize - (old.size : Int)
          else s.fileSelectionSize }
      match restat with
      | some newSize =>
        { s1 with
          itemInfoMap := setItem s1.itemInfoMap id ⟨name, newSize⟩
          totalDirSize := s1.totalDirSize + (newSize : Int)
          fileSelectionSize :=
            if selected then s1.fileSelectionSize + (newSize : Int)
            else s1.fileSelectionSize }
      | none =>
        { s1 with itemInfoMap := setItem s1.itemInfoMap id ⟨old.name, 0⟩ }

/-- `ShellBrowser::OnFileRenamedOldName`: if the old name is in the
pending-add ledger, erase it and raise the fast-rename flag; otherwise
resolve the name to an internal index (`GetItemInternalIndexForPidl`,
modelled from the spec as an item-store lookup by name) and, when found,
record it in `g_iRenamedItem`. When resolution fails everywhere the
function falls through without touching any state. -/
def OnFileRenamedOldName (s : State) (name : String) : State :=
  if s.filesAdded.contains name then
    { s with filesAdded := s.filesAdded.erase name, newFileRenamed := true }
  else
    match (s.itemInfoMap.find? (fun p => p.2.name == name)).map (fun p => p.1) with
    | some id => { s with renamedItem := some id }
    | none => s

/-- `UnfilterItem`. Modelled from the spec: reveal the item by inserting a
row for it into the presentation list. -/
def UnfilterItem (s : State) (id : Nat) : State :=
  { s with listView := s.listView ++ [⟨id, false⟩] }

/-- `RemoveFilteredItem`. Modelled from the spec: evict the item's row from
the presentation list. -/
def RemoveFilteredItem (s : State) (id : Nat) : State :=
  { s with listView := s.listView.filter (fun e => e.id != id) }

/-- `ShellBrowser::RenameItem`: bail out on sentinel index `-1` or failed
resolution of the new name; otherwise overwrite the stored item in place
(same internal index) and reconcile the presentation list against the
filter. -/
def RenameItem (cfg : Config) (s : State) (internalIndex : Option Nat)
    (newName : String) (resolution : Option Nat) : State :=
  match internalIndex with
  | none => s
  | some id =>
    match resolution with
    | none => s
    | some sz =>
      let newItem : Item := ⟨newName, sz⟩
      let s1 := { s with itemInfoMap := setItem s.itemInfoMap id newItem }
      match s1.listView.find? (fun e => e.id == id) with
      | none =>
        if cfg.isFileFiltered newItem then s1 else UnfilterItem s1 id
      | some _ =>
        if cfg.isFileFiltered newItem then RemoveFilteredItem s1 id else s1

/-- `ShellBrowser::OnFileRenamedNewName`: the fast-rename path re-runs
`OnFileAdded` under the new name and lowers the flag; otherwise the marked
item is renamed. Note that `g_iRenamedItem` is not written here. -/
def OnFileRenamedNewName (cfg : Config) (s : State) (name : String)
    (resolution : Option Nat) : State :=
  if s.newFileRenamed then
    { OnFileAdded s name resolution with newFileRenamed := false }
  else
    RenameItem cfg s s.renamedItem name resolution

/-- The five `FILE_ACTION_*` kinds, each carrying the outcome of the
filesystem resolution the handler will perform for it. -/
inductive EAction where
  | added (resolution : Option Nat)
  | modified (restat : Option Nat)
  | removed
  | renamedFrom
  | renamedTo (resolution : Option Nat)
  deriving Repr, DecidableEq

/-- An entry of `m_AlteredList`: filename, action, and the unique folder
index (watch epoch) the event was tagged with. -/
structure AlteredFile where
  szFileName : String
  dwAction : EAction
  iFolderIndex : Nat
  deriving Repr, DecidableEq

def applyAction (cfg : Config) (s : State) (name : String) : EAction → State
  | .added r => OnFileAdded s name r
  | .modified r => OnFileModified s name r
  | .removed => OnFileRemoved s name
  | .renamedFrom => OnFileRenamedOldName s name
  | .renamedTo r => OnFileRenamedNewName cfg s name r

/-- One iteration of the `DirectoryAltered` event loop: the event is
dispatched only when its folder index matches the current one. -/
def stepEvent (cfg : Config) (s : State) (af : AlteredFile) : State :=
  if af.iFolderIndex == s.uniqueFolderId then
    applyAction cfg s af.szFileName af.dwAction
  else
    s

/-- The `DirectoryAltered` event loop over one drained batch. -/
def processBatch (cfg : Config) (s : State) (batch : List AlteredFile) : State :=
  batch.foldl (stepEvent cfg) s

/-- A `select` directive sent to the listview; `focus` records whether the
focus was also placed on the row. -/
structure SelectCall where
  id : Nat
  focus : Bool
  deriving Repr, DecidableEq

/-- `ListViewHelper::SelectItem`: mark the row with the given internal
index selected. -/
def selectEntry (lv : List LVEntry) (id : Nat) : List LVEntry :=
  lv.map (fun e => if e.id == id then { e with selected := true } else e)

structure DrainResult where
  pending : List String
  lv : List LVEntry
  calls : List SelectCall
  selDelta : Int
  deriving Repr, DecidableEq

/-- The selection loop at the end of `DirectoryAltered`: walk
`m_FileSelectionList`; each name that resolves in the listview is selected
(focused when it is the first resolution) and erased from the list;
unresolved names are kept. `selDelta` accounts, per the spec's aggregate
contract, for the sizes of rows that transition to selected. -/
def drainSelectionList (m : List (Nat × Item)) (lv : List LVEntry)
    (focusSet : Bool) : List String → DrainResult
  | [] => ⟨[], lv, [], 0⟩
  | n :: rest =>
    match locateFileItemIndex m lv n with
    | some e =>
      let call : SelectCall := ⟨e.id, !focusSet⟩
      let delta : Int :=
        if e.selected then 0
        else (((lookupItem m e.id).map Item.size).getD 0 : Nat)
      let r := drainSelectionList m (selectEntry lv e.id) true rest
      ⟨r.pending, r.lv, call :: r.calls, delta + r.selDelta⟩
    | none =>
      let r := drainSelectionList m lv focusSet rest
      ⟨n :: r.pending, r.lv, r.calls, r.selDelta⟩

/-- `ShellBrowser::DirectoryAltered`: apply the batch (epoch-filtered, in
FIFO order), clear the altered list, then drain the file-selection list
against the updated presentation state. Returns the updated state and the
select directives issued to the view. -/
def DirectoryAltered (cfg : Config) (s : State) (batch : List AlteredFile) :
    State × List SelectCall :=
  let s1 := processBatch cfg s batch
  let r := drainSelectionList s1.itemInfoMap s1.listView false s1.fileSelectionList
  ({ s1 with
      fileSelectionList := r.pending
      listView := r.lv
      fileSelectionSize := s1.fileSelectionSize + r.selDelta },
    r.calls)

/-! ### Derived quantities and invariants -/

/-- Sum of the sizes of all items in the item store. -/
def storeSizeSum (m : List (Nat × Item)) : Int :=
  (m.map (fun p => (p.2.size : Int))).sum

/-- Contribution of one listview row to the selected-size counter. -/
def selContribution (m : List (Nat × Item)) (e : LVEntry) : Int :=
  if e.selected then (((lookupItem m e.id).map Item.size).getD 0 : Nat) else 0

/-- Sum of the sizes of all currently selected items. -/
def selSizeSum (m : List (Nat × Item)) (lv : List LVEntry) : Int :=
  (lv.map (selContribution m)).sum

/-- The aggregate-counter invariant: `totalDirSize` is the sum of all item
sizes and `fileSelectionSize` the sum of the selected ones. -/
def SizeInvariant (s : State) : Prop :=
  s.totalDirSize = storeSizeSum s.itemInfoMap ∧
  s.fileSelectionSize = selSizeSum s.itemInfoMap s.listView

/-- Structural well-formedness of a reconciler state between events:
distinct internal indices in the store and in the listview, every listview
row backed by a store entry, the awaiting list already flushed, and the
fresh-id counter above every allocated index. -/
def WF (s : State) : Prop :=
  (s.itemInfoMap.map Prod.fst).Nodup ∧
  (s.listView.map LVEntry.id).Nodup ∧
  (∀ e ∈ s.listView, (lookupItem s.itemInfoMap e.id).isSome) ∧
  s.awaitingAddList = [] ∧
  (∀ p ∈ s.itemInfoMap, p.1 < s.nextId) ∧
  (∀ e ∈ s.listView, e.id < s.nextId)

instance : DecidablePred SizeInvariant := fun s => by
  unfold SizeInvariant; infer_instance

instance : DecidablePred WF := fun s => by
  unfold WF; infer_instance

/-- A filter configuration that filters nothing, used by concrete runs. -/
def cfg0 : Config := ⟨fun _ => false⟩

/-- The state of a freshly opened, empty directory. -/
def initialState : State :=
  { itemInfoMap := []
    awaitingAddList := []
    listView := []
    filesAdded := []
    fileSelectionList := []
    totalDirSize := 0
    fileSelectionSize := 0
    newFileRenamed := false
    renamedItem := none
    nextId := 0
    uniqueFolderId := 0 }

/-- A state in which an earlier rename-from has set the rename marker to
item `0`. -/
def renameMarkerState : State :=
  { initialState with
    itemInfoMap := [(0, ⟨"old", 5⟩)]
    listView := [⟨0, false⟩]
    totalDirSize := 5
    renamedItem := some 0
    nextId := 1 }

/-- A state holding a stale rename marker with nothing named `x`
anywhere. -/
def staleMarkerState : State :=
  { initialState with renamedItem := some 5 }

/-- A state with one selected item named `f` of size 9, for exercising the
modified handler. -/
def modTestState : State :=
  { initialState with
    itemInfoMap := [(0, ⟨"f", 9⟩)]
    listView := [⟨0, true⟩]
    totalDirSize := 9
    fileSelectionSize := 9
    nextId := 1 }

/-- A state whose pending-add ledger holds the single name `g`. -/
def ledgerState : State :=
  { initialState with filesAdded := ["g"] }

/-- Whether an action is one of Added/Modified/Removed. -/
def isAMR : EAction → Bool
  | .added _ => true
  | .modified _ => true
  | .removed => true
  | .renamedFrom => false
  | .renamedTo _ => false

/-- Expected focus flags of a run of select calls: the first call carries
the focus, later ones do not. -/
def focusPattern : Nat → List Bool
  | 0 => []
  | k + 1 => true :: List.replicate k false

/-! ### Helper lemmas -/

theorem renamedItem_OnFileAdded (s : State) (name : String) (r : Option Nat) :
    (OnFileAdded s name r).renamedItem = s.renamedItem := by
  cases r <;> rfl

theorem renamedItem_RenameItem (cfg : Config) (s : State) (idx : Option Nat)
    (name : String) (r : Option Nat) :
    (RenameItem cfg s idx name r).renamedItem = s.renamedItem := by
  unfold RenameItem
  cases idx with
  | none => rfl
  | some id =>
    cases r with
    | none => rfl
    | some sz =>
      simp only []
      split
      · split <;> rfl
      · split <;> rfl

/-! ### Claim theorems -/

/-- C9: an event in a batch is applied only when its folder index (watch
epoch) equals the current one; a stale-epoch event is discarded with no
mutation of the item store, the pending-add ledger, or the counters. -/
theorem stale_epoch_event_discarded (cfg : Config) (s : State) (af : AlteredFile) :
    (af.iFolderIndex ≠ s.uniqueFolderId → stepEvent cfg s af = s) ∧
    (af.iFolderIndex = s.uniqueFolderId →
      stepEvent cfg s af = applyAction cfg s af.szFileName af.dwAction) := by
  constructor
  · intro h
    have hb : (af.iFolderIndex == s.uniqueFolderId) = false := beq_eq_false_iff_ne.mpr h
    simp [stepEvent, hb]
  · intro h
    have hb : (af.iFolderIndex == s.uniqueFolderId) = true := beq_iff_eq.mpr h
    simp [stepEvent, hb]

theorem stale_epoch_event_discarded_witness :
    ((⟨"x", .removed, 1⟩ : AlteredFile).iFolderIndex ≠ initialState.uniqueFolderId ∧
      stepEvent cfg0 initialState ⟨"x", .removed, 1⟩ = initialState) ∧
    ((⟨"y", .removed, 0⟩ : AlteredFile).iFolderIndex = initialState.uniqueFolderId ∧
      stepEvent cfg0 initialState ⟨"y", .removed, 0⟩ =
        applyAction cfg0 initialState "y" .removed) :=
  ⟨⟨by decide, (stale_epoch_event_discarded cfg0 initialState ⟨"x", .removed, 1⟩).1 (by decide)⟩,
   ⟨by decide, (stale_epoch_event_discarded cfg0 initialState ⟨"y", .removed, 0⟩).2 (by decide)⟩⟩

/-- C1 counterexample: after a rename-to event is handled through the
marker path, `g_iRenamedItem` still holds the marked index — it is not
cleared, contradicting the claim that it is cleared regardless of
outcome. -/
theorem renamedTo_marker_not_cleared_cex :
    (OnFileRenamedNewName cfg0 renameMarkerState "new" (some 7)).renamedItem ≠ none := by
  decide

/-- C1 (amended): handling a rename-to event never writes the rename
marker: in the fast-rename path only the fast-rename flag is lowered, and
in the marker path the marker keeps its value, so it persists across batch
boundaries until a later successful rename-from overwrites it. -/
theorem renamedTo_preserves_marker (cfg : Config) (s : State) (name : String)
    (r : Option Nat) :
    (OnFileRenamedNewName cfg s name r).renamedItem = s.renamedItem := by
  unfold OnFileRenamedNewName
  split
  · simpa using renamedItem_OnFileAdded s name r
  · exact renamedItem_RenameItem cfg s s.renamedItem name r

/-- C2 counterexample: a rename-from whose name resolves neither in the
pending-add ledger nor in the item store leaves the stale marker in place,
contradicting the claim that the stale marker is cleared. -/
theorem renamedFrom_unmatched_marker_not_cleared_cex :
    (OnFileRenamedOldName staleMarkerState "x").renamedItem ≠ none := by
  decide

/-- C2 (amended): a rename-from whose name is found neither in the
pending-add ledger nor in the item store performs no state change at all —
in particular any stale rename marker is left in place (not cleared), so a
subsequent unmatched rename-to will act on the unrelated earlier marker. -/
theorem renamedFrom_unmatched_noop (s : State) (name : String)
    (h1 : s.filesAdded.contains name = false)
    (h2 : ∀ p ∈ s.itemInfoMap, p.2.name ≠ name) :
    OnFileRenamedOldName s name = s := by
  unfold OnFileRenamedOldName
  rw [h1]
  have hfind : s.itemInfoMap.find? (fun p => p.2.name == name) = none := by
    rw [List.find?_eq_none]
    intro p hp
    simpa using h2 p hp
  simp [hfind]

theorem renamedFrom_unmatched_noop_witness :
    staleMarkerState.filesAdded.contains "x" = false ∧
    (∀ p ∈ staleMarkerState.itemInfoMap, p.2.name ≠ "x") ∧
    OnFileRenamedOldName staleMarkerState "x" = staleMarkerState :=
  ⟨by decide, by decide,
    renamedFrom_unmatched_noop staleMarkerState "x" (by decide) (by decide)⟩

/-- C7: when a modified event finds its item but the re-stat fails, the
handler subtracts the old size from the total (and, when the row is
selected, from the selection counter), zeroes the stored size, and stops:
no size is re-added and no other field of the state changes. -/
theorem modified_restat_fail (s : State) (name : String) (id : Nat) (sel : Bool)
    (old : Item)
    (hfind : findModTarget s name = some (id, sel))
    (hlook : lookupItem s.itemInfoMap id = some old) :
    OnFileModified s name none =
      { s with
        itemInfoMap := setItem s.itemInfoMap id ⟨old.name, 0⟩
        totalDirSize := s.totalDirSize - (old.size : Int)
        fileSelectionSize :=
          if sel then s.fileSelectionSize - (old.size : Int)
          else s.fileSelectionSize } := by
  simp only [OnFileModified, hfind, hlook]

theorem modified_restat_fail_witness :
    findModTarget modTestState "f" = some (0, true) ∧
    lookupItem modTestState.itemInfoMap 0 = some ⟨"f", 9⟩ ∧
    OnFileModified modTestState "f" none =
      { modTestState with
        itemInfoMap := setItem modTestState.itemInfoMap 0 ⟨"f", 0⟩
        totalDirSize := modTestState.totalDirSize - (9 : Int)
        fileSelectionSize :=
          if true then modTestState.fileSelectionSize - (9 : Int)
          else modTestState.fileSelectionSize } :=
  ⟨by decide, by decide,
    modified_restat_fail modTestState "f" 0 true ⟨"f", 9⟩ (by decide) (by decide)⟩

theorem filesAdded_OnFileModified (s : State) (name : String) (r : Option Nat) :
    (OnFileModified s name r).filesAdded = s.filesAdded := by
  unfold OnFileModified
  split
  · rfl
  · split
    · rfl
    · cases r <;> rfl

theorem filesAdded_RemoveItem (s : State) (id : Nat) :
    (RemoveItem s id).filesAdded = s.filesAdded := by
  unfold RemoveItem
  split <;> rfl

theorem filesAdded_RenameItem (cfg : Config) (s : State) (idx : Option Nat)
    (name : String) (r : Option Nat) :
    (RenameItem cfg s idx name r).filesAdded = s.filesAdded := by
  unfold RenameItem
  cases idx with
  | none => rfl
  | some id =>
    cases r with
    | none => rfl
    | some sz =>
      simp only []
      split
      · split <;> rfl
      · split <;> rfl

theorem filter_name_eq_nil (m : List (Nat × Item)) (b : String)
    (h : ∀ p ∈ m, p.2.name ≠ b) :
    m.filter (fun p => p.2.name == b) = [] := by
  rw [List.filter_eq_nil_iff]
  intro p hp
  simpa using h p hp

/-- C3 counterexample: two unresolvable add events for the same name leave
the pending-add ledger holding that name twice, contradicting the
at-most-once invariant in a state reachable from the empty directory. -/
theorem ledger_duplicate_name_cex :
    ¬ ((processBatch cfg0 initialState
        [⟨"x", .added none, 0⟩, ⟨"x", .added none, 0⟩]).filesAdded.count "x" ≤ 1) := by
  decide

/-- C3 (amended): a filename may occur several times in the pending-add
ledger (nothing deduplicates unresolvable adds); what does hold is the
removal discipline: every event handler either leaves the ledger
untouched, appends the event's name once (an unresolvable add, possibly
via the fast-rename path), or erases the first entry matching the event's
name (a matching rename-from or a removed notification). -/
theorem ledger_step_shape (cfg : Config) (s : State) (name : String) (a : EAction) :
    (applyAction cfg s name a).filesAdded = s.filesAdded ∨
    (applyAction cfg s name a).filesAdded = s.filesAdded ++ [name] ∨
    (applyAction cfg s name a).filesAdded = s.filesAdded.erase name := by
  cases a with
  | added r =>
    cases r with
    | some sz => left; rfl
    | none => right; left; rfl
  | modified r =>
    left; exact filesAdded_OnFileModified s name r
  | removed =>
    by_cases h : s.filesAdded.contains name
    · right; right
      show (OnFileRemoved s name).filesAdded = _
      unfold OnFileRemoved
      rw [if_pos h]
    · left
      show (OnFileRemoved s name).filesAdded = _
      unfold OnFileRemoved
      rw [if_neg h]
      cases LocateFileItemInternalIndex s name with
      | some id => exact filesAdded_RemoveItem s id
      | none => rfl
  | renamedFrom =>
    by_cases h : s.filesAdded.contains name
    · right; right
      show (OnFileRenamedOldName s name).filesAdded = _
      unfold OnFileRenamedOldName
      rw [if_pos h]
    · left
      show (OnFileRenamedOldName s name).filesAdded = _
      unfold OnFileRenamedOldName
      rw [if_neg h]
      cases (s.itemInfoMap.find? (fun p => p.2.name == name)).map (fun p => p.1) <;> rfl
  | renamedTo r =>
    by_cases h : s.newFileRenamed
    · cases r with
      | some sz =>
        left
        show (OnFileRenamedNewName cfg s name (some sz)).filesAdded = _
        unfold OnFileRenamedNewName
        rw [if_pos h]
        rfl
      | none =>
        right; left
        show (OnFileRenamedNewName cfg s name none).filesAdded = _
        unfold OnFileRenamedNewName
        rw [if_pos h]
        rfl
    · left
      show (OnFileRenamedNewName cfg s name r).filesAdded = _
      unfold OnFileRenamedNewName
      rw [if_neg h]
      exact filesAdded_RenameItem cfg s s.renamedItem name r

/-- C8: case analysis of the removed-event handler. A name present in the
pending-add ledger is erased there and nothing else changes; otherwise a
name resolving to a stored item has that item's size subtracted from the
counters (from the selection counter only when its row is selected) and
the item deleted from the store and the presentation list; a name found in
neither place leaves the state untouched. -/
theorem removed_event_cases (s : State) (name : String) :
    (s.filesAdded.contains name = true →
      OnFileRemoved s name = { s with filesAdded := s.filesAdded.erase name }) ∧
    (s.filesAdded.contains name = false →
      ∀ id it, LocateFileItemInternalIndex s name = some id →
        lookupItem s.itemInfoMap id = some it →
        OnFileRemoved s name =
          { s with
            itemInfoMap := s.itemInfoMap.filter (fun p => p.1 != id)
            listView := s.listView.filter (fun e => e.id != id)
            totalDirSize := s.totalDirSize - (it.size : Int)
            fileSelectionSize :=
              if rowSelected s.listView id then s.fileSelectionSize - (it.size : Int)
              else s.fileSelectionSize }) ∧
    (s.filesAdded.contains name = false →
      LocateFileItemInternalIndex s name = none →
      OnFileRemoved s name = s) := by
  refine ⟨fun h => ?_, fun h id it hloc hlook => ?_, fun h hloc => ?_⟩
  · unfold OnFileRemoved
    rw [h]
    rfl
  · unfold OnFileRemoved
    rw [h]
    simp only [Bool.false_eq_true, if_false, hloc]
    unfold RemoveItem
    rw [hlook]
  · unfold OnFileRemoved
    rw [h]
    simp only [Bool.false_eq_true, if_false, hloc]

theorem removed_event_cases_witness :
    (ledgerState.filesAdded.contains "g" = true ∧
      OnFileRemoved ledgerState "g" =
        { ledgerState with filesAdded := ledgerState.filesAdded.erase "g" }) ∧
    (modTestState.filesAdded.contains "f" = false ∧
      LocateFileItemInternalIndex modTestState "f" = some 0 ∧
      lookupItem modTestState.itemInfoMap 0 = some ⟨"f", 9⟩ ∧
      OnFileRemoved modTestState "f" =
        { modTestState with
          itemInfoMap := modTestState.itemInfoMap.filter (fun p => p.1 != 0)
          listView := modTestState.listView.filter (fun e => e.id != 0)
          totalDirSize := modTestState.totalDirSize - ((9 : Nat) : Int)
          fileSelectionSize :=
            if rowSelected modTestState.listView 0 then
              modTestState.fileSelectionSize - ((9 : Nat) : Int)
            else modTestState.fileSelectionSize }) ∧
    (initialState.filesAdded.contains "z" = false ∧
      LocateFileItemInternalIndex initialState "z" = none ∧
      OnFileRemoved initialState "z" = initialState) :=
  ⟨⟨by decide, (removed_event_cases ledgerState "g").1 (by decide)⟩,
   ⟨by decide, by decide, by decide,
     (removed_event_cases modTestState "f").2.1 (by decide) 0 ⟨"f", 9⟩ (by decide) (by decide)⟩,
   ⟨by decide, by decide,
     (removed_event_cases initialState "z").2.2 (by decide) (by decide)⟩⟩

/-- C5: the fast-rename race. From a state with an empty pending-add
ledger and a lowered fast-rename flag, an unresolvable `Added("a.tmp")`
followed by `RenamedFrom("a.tmp")` and a resolvable `RenamedTo("b.txt")`
in one batch ends with exactly one item named `b.txt` in the item store
and an empty pending-add ledger. -/
theorem fast_rename_race (cfg : Config) (s : State) (sz : Nat)
    (hledger : s.filesAdded = [])
    (hflag : s.newFileRenamed = false)
    (hawait : s.awaitingAddList = [])
    (hfresh : ∀ p ∈ s.itemInfoMap, p.2.name ≠ "b.txt") :
    (((processBatch cfg s
        [⟨"a.tmp", .added none, s.uniqueFolderId⟩,
         ⟨"a.tmp", .renamedFrom, s.uniqueFolderId⟩,
         ⟨"b.txt", .renamedTo (some sz), s.uniqueFolderId⟩]).itemInfoMap.filter
        (fun p => p.2.name == "b.txt")).length = 1) ∧
    (processBatch cfg s
        [⟨"a.tmp", .added none, s.uniqueFolderId⟩,
         ⟨"a.tmp", .renamedFrom, s.uniqueFolderId⟩,
         ⟨"b.txt", .renamedTo (some sz), s.uniqueFolderId⟩]).filesAdded = [] := by
  have hc : (["a.tmp"] : List String).contains "a.tmp" = true := rfl
  have he : (["a.tmp"] : List String).erase "a.tmp" = [] := rfl
  have hrun : processBatch cfg s
      [⟨"a.tmp", .added none, s.uniqueFolderId⟩,
       ⟨"a.tmp", .renamedFrom, s.uniqueFolderId⟩,
       ⟨"b.txt", .renamedTo (some sz), s.uniqueFolderId⟩] =
      { s with
        itemInfoMap := s.itemInfoMap ++ [(s.nextId, ⟨"b.txt", sz⟩)]
        awaitingAddList := []
        listView := s.listView ++ [⟨s.nextId, false⟩]
        filesAdded := []
        totalDirSize := s.totalDirSize + (sz : Int)
        newFileRenamed := false
        nextId := s.nextId + 1 } := by
    simp [processBatch, stepEvent, applyAction, OnFileAdded, OnFileRenamedOldName,
      OnFileRenamedNewName, AddItemInternal, InsertAwaitingItems, hledger, hflag, hawait,
      hc, he]
  rw [hrun]
  constructor
  · rw [List.filter_append, filter_name_eq_nil s.itemInfoMap "b.txt" hfresh]
    simp
  · rfl

theorem fast_rename_race_witness :
    initialState.filesAdded = [] ∧
    initialState.newFileRenamed = false ∧
    initialState.awaitingAddList = [] ∧
    (∀ p ∈ initialState.itemInfoMap, p.2.name ≠ "b.txt") ∧
    ((((processBatch cfg0 initialState
        [⟨"a.tmp", .added none, initialState.uniqueFolderId⟩,
         ⟨"a.tmp", .renamedFrom, initialState.uniqueFolderId⟩,
         ⟨"b.txt", .renamedTo (some 4), initialState.uniqueFolderId⟩]).itemInfoMap.filter
        (fun p => p.2.name == "b.txt")).length = 1) ∧
     (processBatch cfg0 initialState
        [⟨"a.tmp", .added none, initialState.uniqueFolderId⟩,
         ⟨"a.tmp", .renamedFrom, initialState.uniqueFolderId⟩,
         ⟨"b.txt", .renamedTo (some 4), initialState.uniqueFolderId⟩]).filesAdded = []) :=
  ⟨rfl, rfl, rfl, by decide, fast_rename_race cfg0 initialState 4 rfl rfl rfl (by decide)⟩

/-! ### Association-list lookup lemmas -/

theorem lookupItem_nil (k : Nat) : lookupItem [] k = none := rfl

theorem lookupItem_cons (a : Nat × Item) (m : List (Nat × Item)) (k : Nat) :
    lookupItem (a :: m) k = if a.1 == k then some a.2 else lookupItem m k := by
  unfold lookupItem
  by_cases h : (a.1 == k) = true
  · rw [List.find?_cons_of_pos (p := fun q => q.1 == k) m h, if_pos h]
    rfl
  · rw [List.find?_cons_of_neg (p := fun q => q.1 == k) m h, if_neg h]

theorem lookupItem_append_ne (m : List (Nat × Item)) (n k : Nat) (it : Item)
    (hk : k ≠ n) : lookupItem (m ++ [(n, it)]) k = lookupItem m k := by
  induction m with
  | nil =>
    rw [List.nil_append, lookupItem_cons]
    simp [beq_eq_false_iff_ne.mpr (Ne.symm hk), lookupItem_nil]
  | cons a l ih =>
    rw [List.cons_append, lookupItem_cons, lookupItem_cons, ih]

theorem lookupItem_eq_none_of_lt (m : List (Nat × Item)) (n : Nat)
    (h : ∀ p ∈ m, p.1 < n) : lookupItem m n = none := by
  induction m with
  | nil => rfl
  | cons a l ih =>
    rw [lookupItem_cons]
    have ha : a.1 ≠ n := Nat.ne_of_lt (h a (List.mem_cons_self a l))
    rw [if_neg (by simpa using ha)]
    exact ih (fun p hp => h p (List.mem_cons_of_mem a hp))

theorem lookupItem_append_self (m : List (Nat × Item)) (n : Nat) (it : Item)
    (h : lookupItem m n = none) : lookupItem (m ++ [(n, it)]) n = some it := by
  induction m with
  | nil => simp [lookupItem_cons]
  | cons a l ih =>
    rw [lookupItem_cons] at h
    rw [List.cons_append, lookupItem_cons]
    by_cases ha : (a.1 == n) = true
    · rw [if_pos ha] at h
      cases h
    · rw [if_neg ha] at h
      rw [if_neg ha]
      exact ih h

theorem lookupItem_isSome_iff (m : List (Nat × Item)) (id : Nat) :
    (lookupItem m id).isSome = (m.find? (fun p => p.1 == id)).isSome := by
  unfold lookupItem
  cases m.find? (fun p => p.1 == id) <;> rfl

theorem setItem_of_isSome (m : List (Nat × Item)) (id : Nat) (it : Item)
    (h : (lookupItem m id).isSome = true) :
    setItem m id it = m.map (fun p => if p.1 == id then (id, it) else p) := by
  unfold setItem
  rw [if_pos]
  rw [← lookupItem_isSome_iff]
  exact h

theorem lookupItem_mapset_ne (m : List (Nat × Item)) (id k : Nat) (it : Item)
    (hk : k ≠ id) :
    lookupItem (m.map (fun p => if p.1 == id then (id, it) else p)) k =
      lookupItem m k := by
  induction m with
  | nil => rfl
  | cons a l ih =>
    rw [List.map_cons, lookupItem_cons, lookupItem_cons, ih]
    by_cases ha : (a.1 == id) = true
    · simp only [if_pos ha]
      have haid : a.1 = id := by simpa using ha
      have h1 : (((id, it) : Nat × Item).1 == k) = false :=
        beq_eq_false_iff_ne.mpr (Ne.symm hk)
      have h2 : (a.1 == k) = false := by
        rw [haid]
        exact beq_eq_false_iff_ne.mpr (Ne.symm hk)
      rw [h1, h2]
      rfl
    · simp only [if_neg ha]

theorem lookupItem_mapset_self (m : List (Nat × Item)) (id : Nat) (it : Item)
    (h : (lookupItem m id).isSome = true) :
    lookupItem (m.map (fun p => if p.1 == id then (id, it) else p)) id = some it := by
  induction m with
  | nil => simp [lookupItem] at h
  | cons a l ih =>
    rw [List.map_cons, lookupItem_cons]
    by_cases ha : (a.1 == id) = true
    · simp only [if_pos ha]
      rw [if_pos (beq_self_eq_true id)]
    · simp only [if_neg ha]
      rw [lookupItem_cons, if_neg ha] at h
      exact ih h

theorem lookupItem_setItem_ne (m : List (Nat × Item)) (id k : Nat) (it : Item)
    (hk : k ≠ id) : lookupItem (setItem m id it) k = lookupItem m k := by
  unfold setItem
  split
  · exact lookupItem_mapset_ne m id k it hk
  · exact lookupItem_append_ne m id k it hk

theorem lookupItem_setItem_self (m : List (Nat × Item)) (id : Nat) (it : Item)
    (h : (lookupItem m id).isSome = true) :
    lookupItem (setItem m id it) id = some it := by
  rw [setItem_of_isSome m id it h]
  exact lookupItem_mapset_self m id it h

theorem map_fst_mapset (m : List (Nat × Item)) (id : Nat) (it : Item) :
    (m.map (fun p => if p.1 == id then (id, it) else p)).map Prod.fst =
      m.map Prod.fst := by
  induction m with
  | nil => rfl
  | cons a l ih =>
    rw [List.map_cons, List.map_cons, List.map_cons, ih]
    by_cases ha : (a.1 == id) = true
    · have haid : a.1 = id := by simpa using ha
      simp only [if_pos ha]
      rw [haid]
    · simp only [if_neg ha]

theorem setItem_map_fst (m : List (Nat × Item)) (id : Nat) (it : Item)
    (h : (lookupItem m id).isSome = true) :
    (setItem m id it).map Prod.fst = m.map Prod.fst := by
  rw [setItem_of_isSome m id it h]
  exact map_fst_mapset m id it

theorem lookupItem_filter_ne (m : List (Nat × Item)) (id k : Nat)
    (hk : k ≠ id) :
    lookupItem (m.filter (fun p => p.1 != id)) k = lookupItem m k := by
  induction m with
  | nil => rfl
  | cons a l ih =>
    by_cases ha : (a.1 != id) = true
    · rw [List.filter_cons_of_pos (p := fun (q : Nat × Item) => q.1 != id) ha,
        lookupItem_cons, lookupItem_cons, ih]
    · have haid : a.1 = id := by simpa using ha
      rw [List.filter_cons_of_neg (p := fun (q : Nat × Item) => q.1 != id) ha, ih,
        lookupItem_cons, if_neg (by simp [haid, Ne.symm hk])]

/-! ### Aggregate-sum lemmas -/

theorem storeSizeSum_nil : storeSizeSum [] = 0 := rfl

theorem storeSizeSum_cons (a : Nat × Item) (m : List (Nat × Item)) :
    storeSizeSum (a :: m) = (a.2.size : Int) + storeSizeSum m := by
  simp [storeSizeSum]

theorem storeSizeSum_append (m₁ m₂ : List (Nat × Item)) :
    storeSizeSum (m₁ ++ m₂) = storeSizeSum m₁ + storeSizeSum m₂ := by
  simp [storeSizeSum]

theorem mapset_eq_self (l : List (Nat × Item)) (id : Nat) (it : Item)
    (h : ∀ p ∈ l, p.1 ≠ id) :
    l.map (fun p => if p.1 == id then (id, it) else p) = l := by
  induction l with
  | nil => rfl
  | cons a l ih =>
    have ha : (a.1 == id) = false :=
      beq_eq_false_iff_ne.mpr (h a (List.mem_cons_self a l))
    rw [List.map_cons, ih (fun p hp => h p (List.mem_cons_of_mem a hp))]
    simp only [ha]
    rfl

theorem storeSizeSum_mapset (m : List (Nat × Item)) (id : Nat) (it old : Item)
    (hnd : (m.map Prod.fst).Nodup) (h : lookupItem m id = some old) :
    storeSizeSum (m.map (fun p => if p.1 == id then (id, it) else p)) =
      storeSizeSum m - (old.size : Int) + (it.size : Int) := by
  induction m with
  | nil => simp [lookupItem] at h
  | cons a l ih =>
    rw [List.map_cons, List.nodup_cons] at hnd
    rw [lookupItem_cons] at h
    by_cases ha : (a.1 == id) = true
    · rw [if_pos ha] at h
      have haid : a.1 = id := by simpa using ha
      have hold : a.2 = old := by injection h
      have hall : ∀ p ∈ l, p.1 ≠ id := by
        intro p hp hpid
        exact hnd.1 (haid ▸ hpid ▸ List.mem_map_of_mem Prod.fst hp)
      rw [List.map_cons, mapset_eq_self l id it hall]
      simp only [if_pos ha]
      rw [storeSizeSum_cons, storeSizeSum_cons, hold]
      ring
    · rw [if_neg ha] at h
      rw [List.map_cons]
      simp only [if_neg ha]
      rw [storeSizeSum_cons, storeSizeSum_cons, ih hnd.2 h]
      ring

theorem storeSizeSum_setItem (m : List (Nat × Item)) (id : Nat) (it old : Item)
    (hnd : (m.map Prod.fst).Nodup) (h : lookupItem m id = some old) :
    storeSizeSum (setItem m id it) =
      storeSizeSum m - (old.size : Int) + (it.size : Int) := by
  rw [setItem_of_isSome m id it (by rw [h]; rfl)]
  exact storeSizeSum_mapset m id it old hnd h

theorem filter_key_eq_self (l : List (Nat × Item)) (id : Nat)
    (h : ∀ p ∈ l, p.1 ≠ id) :
    l.filter (fun p => p.1 != id) = l := by
  refine List.filter_eq_self.mpr ?_
  intro p hp
  simpa using h p hp

theorem storeSizeSum_filter_key (m : List (Nat × Item)) (id : Nat) (it : Item)
    (hnd : (m.map Prod.fst).Nodup) (h : lookupItem m id = some it) :
    storeSizeSum (m.filter (fun p => p.1 != id)) =
      storeSizeSum m - (it.size : Int) := by
  induction m with
  | nil => simp [lookupItem] at h
  | cons a l ih =>
    rw [List.map_cons, List.nodup_cons] at hnd
    rw [lookupItem_cons] at h
    by_cases ha : (a.1 == id) = true
    · rw [if_pos ha] at h
      have haid : a.1 = id := by simpa using ha
      have hit : a.2 = it := by injection h
      have hall : ∀ p ∈ l, p.1 ≠ id := by
        intro p hp hpid
        exact hnd.1 (haid ▸ hpid ▸ List.mem_map_of_mem Prod.fst hp)
      rw [List.filter_cons_of_neg (p := fun (q : Nat × Item) => q.1 != id)
          (by simp [haid]), filter_key_eq_self l id hall, storeSizeSum_cons, hit]
      ring
    · rw [if_neg ha] at h
      rw [List.filter_cons_of_pos (p := fun (q : Nat × Item) => q.1 != id)
          (by simpa using ha), storeSizeSum_cons, storeSizeSum_cons, ih hnd.2 h]
      ring

theorem selSizeSum_nil (m : List (Nat × Item)) : selSizeSum m [] = 0 := rfl

theorem selSizeSum_cons (m : List (Nat × Item)) (e : LVEntry) (lv : List LVEntry) :
    selSizeSum m (e :: lv) = selContribution m e + selSizeSum m lv := by
  simp [selSizeSum]

theorem selSizeSum_append (m : List (Nat × Item)) (lv₁ lv₂ : List LVEntry) :
    selSizeSum m (lv₁ ++ lv₂) = selSizeSum m lv₁ + selSizeSum m lv₂ := by
  simp [selSizeSum]

theorem selSizeSum_congr (m m' : List (Nat × Item)) (lv : List LVEntry)
    (h : ∀ e ∈ lv, selContribution m' e = selContribution m e) :
    selSizeSum m' lv = selSizeSum m lv := by
  unfold selSizeSum
  exact congrArg List.sum (List.map_congr_left h)

theorem selContribution_congr (m m' : List (Nat × Item)) (e : LVEntry)
    (h : lookupItem m' e.id = lookupItem m e.id) :
    selContribution m' e = selContribution m e := by
  unfold selContribution
  rw [h]

theorem selSizeSum_update (m m' : List (Nat × Item)) (lv : List LVEntry) (id : Nat)
    (hnd : (lv.map LVEntry.id).Nodup)
    (hcong : ∀ x ∈ lv, x.id ≠ id → selContribution m' x = selContribution m x) :
    ∀ e ∈ lv, e.id = id →
      selSizeSum m' lv =
        selSizeSum m lv - selContribution m e + selContribution m' e := by
  induction lv with
  | nil =>
    intro e he _
    cases he
  | cons a l ih =>
    rw [List.map_cons, List.nodup_cons] at hnd
    intro e he hid
    rcases List.mem_cons.mp he with heq | hel
    · subst heq
      have hall : ∀ x ∈ l, x.id ≠ id := by
        intro x hx hxid
        apply hnd.1
        have hm : x.id ∈ l.map LVEntry.id := List.mem_map_of_mem LVEntry.id hx
        rw [hxid, ← hid] at hm
        exact hm
      rw [selSizeSum_cons, selSizeSum_cons,
        selSizeSum_congr m m' l
          (fun x hx => hcong x (List.mem_cons_of_mem e hx) (hall x hx))]
      ring
    · have haid : a.id ≠ id := by
        intro hh
        apply hnd.1
        have hm : e.id ∈ l.map LVEntry.id := List.mem_map_of_mem LVEntry.id hel
        rw [hid, ← hh] at hm
        exact hm
      rw [selSizeSum_cons, selSizeSum_cons, hcong a (List.mem_cons_self a l) haid,
        ih hnd.2 (fun x hx hxid => hcong x (List.mem_cons_of_mem a hx) hxid) e hel hid]
      ring

theorem selSizeSum_filter_key (m : List (Nat × Item)) (lv : List LVEntry) (id : Nat)
    (hnd : (lv.map LVEntry.id).Nodup) :
    selSizeSum m (lv.filter (fun e => e.id != id)) =
      selSizeSum m lv -
        (match lv.find? (fun e => e.id == id) with
         | some e => selContribution m e
         | none => 0) := by
  induction lv with
  | nil => simp [selSizeSum]
  | cons a l ih =>
    rw [List.map_cons, List.nodup_cons] at hnd
    by_cases ha : (a.id == id) = true
    · have haid : a.id = id := by simpa using ha
      have hall : ∀ x ∈ l, x.id ≠ id := by
        intro x hx hxid
        apply hnd.1
        have hm : x.id ∈ l.map LVEntry.id := List.mem_map_of_mem LVEntry.id hx
        rw [hxid, ← haid] at hm
        exact hm
      have hfl : l.filter (fun e => e.id != id) = l := by
        refine List.filter_eq_self.mpr ?_
        intro x hx
        simpa using hall x hx
      rw [List.filter_cons_of_neg (p := fun (q : LVEntry) => q.id != id)
          (by simp [haid]), hfl,
        List.find?_cons_of_pos (p := fun (q : LVEntry) => q.id == id) l ha,
        selSizeSum_cons]
      ring
    · rw [List.filter_cons_of_pos (p := fun (q : LVEntry) => q.id != id)
          (by simpa using ha),
        List.find?_cons_of_neg (p := fun (q : LVEntry) => q.id == id) l ha,
        selSizeSum_cons, selSizeSum_cons, ih hnd.2]
      cases l.find? (fun e => e.id == id) <;> ring

theorem selOfId_rowSelected (m : List (Nat × Item)) (lv : List LVEntry) (id : Nat)
    (it : Item) (h : lookupItem m id = some it) :
    (match lv.find? (fun e => e.id == id) with
     | some e => selContribution m e
     | none => 0) = (if rowSelected lv id then (it.size : Int) else 0) := by
  unfold rowSelected
  cases hf : lv.find? (fun e => e.id == id) with
  | none => simp
  | some e =>
    have heid : e.id = id := by simpa using List.find?_some hf
    show selContribution m e = if e.selected then (it.size : Int) else 0
    unfold selContribution
    rw [heid, h]
    cases e.selected <;> simp

theorem lookupItem_of_mem (m : List (Nat × Item)) (p : Nat × Item)
    (hnd : (m.map Prod.fst).Nodup) (hp : p ∈ m) :
    lookupItem m p.1 = some p.2 := by
  induction m with
  | nil => cases hp
  | cons a l ih =>
    rw [List.map_cons, List.nodup_cons] at hnd
    rcases List.mem_cons.mp hp with heq | hpl
    · subst heq
      rw [lookupItem_cons, if_pos (beq_self_eq_true p.1)]
    · have hne : a.1 ≠ p.1 := by
        intro hh
        apply hnd.1
        have hm : p.1 ∈ l.map Prod.fst := List.mem_map_of_mem Prod.fst hpl
        rw [← hh] at hm
        exact hm
      rw [lookupItem_cons, if_neg (by simpa using hne)]
      exact ih hnd.2 hpl

theorem wfinv_OnFileAdded (s : State) (name : String) (r : Option Nat)
    (h : WF s ∧ SizeInvariant s) :
    WF (OnFileAdded s name r) ∧ SizeInvariant (OnFileAdded s name r) := by
  obtain ⟨⟨hknd, hlnd, hback, hawn, hkf, hlf⟩, htot, hsel⟩ := h
  cases r with
  | none => exact ⟨⟨hknd, hlnd, hback, hawn, hkf, hlf⟩, htot, hsel⟩
  | some sz =>
    have hs' : OnFileAdded s name (some sz) =
        { s with
          itemInfoMap := s.itemInfoMap ++ [(s.nextId, (Item.mk name sz))]
          awaitingAddList := []
          listView := s.listView ++ [(LVEntry.mk s.nextId false)]
          totalDirSize := s.totalDirSize + (sz : Int)
          nextId := s.nextId + 1 } := by
      simp only [OnFileAdded, InsertAwaitingItems, AddItemInternal, hawn]
      rfl
    rw [hs']
    have hnone : lookupItem s.itemInfoMap s.nextId = none :=
      lookupItem_eq_none_of_lt s.itemInfoMap s.nextId hkf
    constructor
    · refine ⟨?_, ?_, ?_, rfl, ?_, ?_⟩
      · show ((s.itemInfoMap ++ [(s.nextId, (Item.mk name sz))]).map Prod.fst).Nodup
        rw [List.map_append]
        rw [List.nodup_append]
        refine ⟨hknd, List.nodup_singleton _, ?_⟩
        intro a ha hb
        rcases List.mem_map.mp ha with ⟨p, hp, rfl⟩
        have hb' : p.1 = s.nextId := by simpa using hb
        exact absurd (hb' ▸ hkf p hp) (Nat.lt_irrefl _)
      · show ((s.listView ++ [(LVEntry.mk s.nextId false)]).map LVEntry.id).Nodup
        rw [List.map_append]
        rw [List.nodup_append]
        refine ⟨hlnd, List.nodup_singleton _, ?_⟩
        intro a ha hb
        rcases List.mem_map.mp ha with ⟨e, he, rfl⟩
        have hb' : e.id = s.nextId := by simpa using hb
        exact absurd (hb' ▸ hlf e he) (Nat.lt_irrefl _)
      · intro e he
        rcases List.mem_append.mp he with h1 | h2
        · show (lookupItem (s.itemInfoMap ++ [(s.nextId, (Item.mk name sz))]) e.id).isSome = true
          rw [lookupItem_append_ne _ _ _ _ (Nat.ne_of_lt (hlf e h1))]
          exact hback e h1
        · have he' : e = (LVEntry.mk s.nextId false) := List.mem_singleton.mp h2
          subst he'
          show (lookupItem (s.itemInfoMap ++ [(s.nextId, (Item.mk name sz))]) s.nextId).isSome = true
          rw [lookupItem_append_self _ _ _ hnone]
          rfl
      · intro p hp
        rcases List.mem_append.mp hp with h1 | h2
        · exact Nat.lt_trans (hkf p h1) (Nat.lt_succ_self _)
        · have hp' : p = (s.nextId, (Item.mk name sz)) := List.mem_singleton.mp h2
          subst hp'
          exact Nat.lt_succ_self _
      · intro e he
        rcases List.mem_append.mp he with h1 | h2
        · exact Nat.lt_trans (hlf e h1) (Nat.lt_succ_self _)
        · have he' : e = (LVEntry.mk s.nextId false) := List.mem_singleton.mp h2
          subst he'
          exact Nat.lt_succ_self _
    · constructor
      · show s.totalDirSize + (sz : Int) =
          storeSizeSum (s.itemInfoMap ++ [(s.nextId, (Item.mk name sz))])
        rw [storeSizeSum_append, ← htot]
        simp [storeSizeSum]
      · show s.fileSelectionSize =
          selSizeSum (s.itemInfoMap ++ [(s.nextId, (Item.mk name sz))])
            (s.listView ++ [(LVEntry.mk s.nextId false)])
        rw [selSizeSum_append]
        have h1 : selSizeSum (s.itemInfoMap ++ [(s.nextId, (Item.mk name sz))]) s.listView =
            selSizeSum s.itemInfoMap s.listView :=
          selSizeSum_congr _ _ _ (fun e he => selContribution_congr _ _ e
            (lookupItem_append_ne _ _ _ _ (Nat.ne_of_lt (hlf e he))))
        rw [h1, ← hsel]
        simp [selSizeSum, selContribution]

theorem wfinv_OnFileModified (s : State) (name : String) (r : Option Nat)
    (h : WF s ∧ SizeInvariant s) :
    WF (OnFileModified s name r) ∧ SizeInvariant (OnFileModified s name r) := by
  obtain ⟨⟨hknd, hlnd, hback, hawn, hkf, hlf⟩, htot, hsel⟩ := h
  cases hft : findModTarget s name with
  | none =>
    have hs' : OnFileModified s name r = s := by
      unfold OnFileModified
      rw [hft]
    rw [hs']
    exact ⟨⟨hknd, hlnd, hback, hawn, hkf, hlf⟩, htot, hsel⟩
  | some pr =>
    obtain ⟨id, sel⟩ := pr
    obtain ⟨e, hloc, heid, hesel⟩ :
        ∃ e, locateFileItemIndex s.itemInfoMap s.listView name = some e ∧
          e.id = id ∧ e.selected = sel := by
      unfold findModTarget at hft
      cases hl : locateFileItemIndex s.itemInfoMap s.listView name with
      | some e =>
        rw [hl] at hft
        have h1 : (e.id, e.selected) = (id, sel) := by injection hft
        exact ⟨e, rfl, congrArg Prod.fst h1, congrArg Prod.snd h1⟩
      | none =>
        rw [hl, hawn] at hft
        cases hft
    have hmem : e ∈ s.listView := by
      unfold locateFileItemIndex at hloc
      exact List.mem_of_find?_eq_some hloc
    have hbe : (lookupItem s.itemInfoMap e.id).isSome = true := hback e hmem
    obtain ⟨old, hlk⟩ := Option.isSome_iff_exists.mp hbe
    rw [heid] at hlk
    have hsome : (lookupItem s.itemInfoMap id).isSome = true := by
      rw [hlk]
      rfl
    have hcongr : ∀ it' : Item, ∀ x ∈ s.listView, x.id ≠ id →
        selContribution (setItem s.itemInfoMap id it') x =
          selContribution s.itemInfoMap x :=
      fun it' x _ hxid =>
        selContribution_congr _ _ x (lookupItem_setItem_ne s.itemInfoMap id x.id it' hxid)
    have hcontrib_old : selContribution s.itemInfoMap e =
        (if sel then (old.size : Int) else 0) := by
      unfold selContribution
      rw [heid, hlk, hesel]
      cases sel <;> simp
    have hcontrib_new : ∀ it' : Item,
        selContribution (setItem s.itemInfoMap id it') e =
          (if sel then (it'.size : Int) else 0) := by
      intro it'
      unfold selContribution
      rw [heid, lookupItem_setItem_self s.itemInfoMap id it' hsome, hesel]
      cases sel <;> simp
    have hkeys : ∀ it' : Item,
        (setItem s.itemInfoMap id it').map Prod.fst = s.itemInfoMap.map Prod.fst :=
      fun it' => setItem_map_fst s.itemInfoMap id it' hsome
    have hwf' : ∀ it' : Item,
        WF { s with itemInfoMap := setItem s.itemInfoMap id it' } ∧
        ∀ tot selc : Int,
          SizeInvariant { s with
            itemInfoMap := setItem s.itemInfoMap id it'
            totalDirSize := tot
            fileSelectionSize := selc } ↔
          (tot = s.totalDirSize - (old.size : Int) + (it'.size : Int) ∧
            selc = s.fileSelectionSize - (if sel then (old.size : Int) else 0) +
              (if sel then (it'.size : Int) else 0)) := by
      intro it'
      constructor
      · refine ⟨?_, hlnd, ?_, hawn, ?_, hlf⟩
        · show ((setItem s.itemInfoMap id it').map Prod.fst).Nodup
          rw [hkeys it']
          exact hknd
        · intro x hx
          show (lookupItem (setItem s.itemInfoMap id it') x.id).isSome = true
          by_cases hxid : x.id = id
          · rw [hxid, lookupItem_setItem_self s.itemInfoMap id it' hsome]
            rfl
          · rw [lookupItem_setItem_ne s.itemInfoMap id x.id it' hxid]
            exact hback x hx
        · intro p hp
          have hp1 : p.1 ∈ s.itemInfoMap.map Prod.fst := by
            rw [← hkeys it']
            exact List.mem_map_of_mem Prod.fst hp
          rcases List.mem_map.mp hp1 with ⟨q, hq, hqe⟩
          rw [← hqe]
          exact hkf q hq
      · intro tot selc
        unfold SizeInvariant
        have h1 : storeSizeSum (setItem s.itemInfoMap id it') =
            s.totalDirSize - (old.size : Int) + (it'.size : Int) := by
          rw [storeSizeSum_setItem s.itemInfoMap id it' old hknd hlk, ← htot]
        have h2 : selSizeSum (setItem s.itemInfoMap id it') s.listView =
            s.fileSelectionSize - (if sel then (old.size : Int) else 0) +
              (if sel then (it'.size : Int) else 0) := by
          rw [selSizeSum_update s.itemInfoMap (setItem s.itemInfoMap id it')
              s.listView id hlnd (hcongr it') e hmem heid, hcontrib_old,
            hcontrib_new it', ← hsel]
        constructor
        · intro hiv
          exact ⟨h1 ▸ hiv.1, h2 ▸ hiv.2⟩
        · intro hiv
          exact ⟨h1 ▸ hiv.1, h2 ▸ hiv.2⟩
    cases r with
    | some newSize =>
      have hs' : OnFileModified s name (some newSize) =
          { s with
            itemInfoMap := setItem s.itemInfoMap id (Item.mk name newSize)
            totalDirSize := s.totalDirSize - (old.size : Int) + (newSize : Int)
            fileSelectionSize :=
              if sel then
                s.fileSelectionSize - (old.size : Int) + (newSize : Int)
              else s.fileSelectionSize } := by
        simp only [OnFileModified, hft, hlk]
        cases sel <;> rfl
      rw [hs']
      refine ⟨(hwf' (Item.mk name newSize)).1, ?_⟩
      rw [(hwf' (Item.mk name newSize)).2]
      refine ⟨rfl, ?_⟩
      cases sel <;> simp
    | none =>
      have hs' : OnFileModified s name none =
          { s with
            itemInfoMap := setItem s.itemInfoMap id (Item.mk old.name 0)
            totalDirSize := s.totalDirSize - (old.size : Int)
            fileSelectionSize :=
              if sel then s.fileSelectionSize - (old.size : Int)
              else s.fileSelectionSize } := by
        simp only [OnFileModified, hft, hlk]
      rw [hs']
      refine ⟨(hwf' (Item.mk old.name 0)).1, ?_⟩
      rw [(hwf' (Item.mk old.name 0)).2]
      constructor
      · show s.totalDirSize - (old.size : Int) =
          s.totalDirSize - (old.size : Int) + ((Item.mk old.name 0).size : Int)
        simp
      · cases sel <;> simp

theorem wfinv_OnFileRemoved (s : State) (name : String)
    (h : WF s ∧ SizeInvariant s) :
    WF (OnFileRemoved s name) ∧ SizeInvariant (OnFileRemoved s name) := by
  obtain ⟨⟨hknd, hlnd, hback, hawn, hkf, hlf⟩, htot, hsel⟩ := h
  unfold OnFileRemoved
  by_cases hc : s.filesAdded.contains name
  · rw [if_pos hc]
    exact ⟨⟨hknd, hlnd, hback, hawn, hkf, hlf⟩, htot, hsel⟩
  · rw [if_neg hc]
    cases hl : LocateFileItemInternalIndex s name with
    | none => exact ⟨⟨hknd, hlnd, hback, hawn, hkf, hlf⟩, htot, hsel⟩
    | some id =>
      have hex : ∃ it, lookupItem s.itemInfoMap id = some it := by
        unfold LocateFileItemInternalIndex at hl
        cases hf : s.itemInfoMap.find? (fun p => p.2.name == name) with
        | none =>
          rw [hf] at hl
          cases hl
        | some p =>
          rw [hf] at hl
          have h1 : p.1 = id := by injection hl
          exact ⟨p.2, h1 ▸ lookupItem_of_mem s.itemInfoMap p hknd
            (List.mem_of_find?_eq_some hf)⟩
      obtain ⟨it, hlk⟩ := hex
      have hs' : RemoveItem s id =
          { s with
            itemInfoMap := s.itemInfoMap.filter (fun p => p.1 != id)
            listView := s.listView.filter (fun e => e.id != id)
            totalDirSize := s.totalDirSize - (it.size : Int)
            fileSelectionSize :=
              if rowSelected s.listView id then
                s.fileSelectionSize - (it.size : Int)
              else s.fileSelectionSize } := by
        unfold RemoveItem
        rw [hlk]
      show WF (RemoveItem s id) ∧ SizeInvariant (RemoveItem s id)
      rw [hs']
      constructor
      · refine ⟨?_, ?_, ?_, hawn, ?_, ?_⟩
        · show ((s.itemInfoMap.filter (fun p => p.1 != id)).map Prod.fst).Nodup
          exact hknd.sublist ((List.filter_sublist _).map Prod.fst)
        · show ((s.listView.filter (fun e => e.id != id)).map LVEntry.id).Nodup
          exact hlnd.sublist ((List.filter_sublist _).map LVEntry.id)
        · intro e he
          have he' : e ∈ s.listView := List.mem_of_mem_filter he
          have hne : e.id ≠ id := by simpa using List.of_mem_filter he
          show (lookupItem (s.itemInfoMap.filter (fun p => p.1 != id)) e.id).isSome = true
          rw [lookupItem_filter_ne _ _ _ hne]
          exact hback e he'
        · intro p hp
          exact hkf p (List.mem_of_mem_filter hp)
        · intro e he
          exact hlf e (List.mem_of_mem_filter he)
      · constructor
        · show s.totalDirSize - (it.size : Int) =
            storeSizeSum (s.itemInfoMap.filter (fun p => p.1 != id))
          rw [storeSizeSum_filter_key s.itemInfoMap id it hknd hlk, ← htot]
        · show (if rowSelected s.listView id then
              s.fileSelectionSize - (it.size : Int)
            else s.fileSelectionSize) =
            selSizeSum (s.itemInfoMap.filter (fun p => p.1 != id))
              (s.listView.filter (fun e => e.id != id))
          have hcong : selSizeSum (s.itemInfoMap.filter (fun p => p.1 != id))
              (s.listView.filter (fun e => e.id != id)) =
              selSizeSum s.itemInfoMap (s.listView.filter (fun e => e.id != id)) := by
            apply selSizeSum_congr
            intro e he
            have hne : e.id ≠ id := by simpa using List.of_mem_filter he
            exact selContribution_congr _ _ e (lookupItem_filter_ne _ _ _ hne)
          rw [hcong, selSizeSum_filter_key s.itemInfoMap s.listView id hlnd,
            selOfId_rowSelected s.itemInfoMap s.listView id it hlk, ← hsel]
          cases rowSelected s.listView id <;> simp

theorem wfinv_stepEvent (cfg : Config) (s : State) (af : AlteredFile)
    (hk : isAMR af.dwAction = true)
    (h : WF s ∧ SizeInvariant s) :
    WF (stepEvent cfg s af) ∧ SizeInvariant (stepEvent cfg s af) := by
  unfold stepEvent
  by_cases he : (af.iFolderIndex == s.uniqueFolderId) = true
  · rw [if_pos he]
    cases ha : af.dwAction with
    | added r => exact wfinv_OnFileAdded s af.szFileName r h
    | modified r => exact wfinv_OnFileModified s af.szFileName r h
    | removed => exact wfinv_OnFileRemoved s af.szFileName h
    | renamedFrom =>
      rw [ha] at hk
      simp [isAMR] at hk
    | renamedTo r =>
      rw [ha] at hk
      simp [isAMR] at hk
  · rw [if_neg he]
    exact h

theorem wfinv_processBatch (cfg : Config) (batch : List AlteredFile) (s : State)
    (hk : ∀ af ∈ batch, isAMR af.dwAction = true)
    (h : WF s ∧ SizeInvariant s) :
    WF (processBatch cfg s batch) ∧ SizeInvariant (processBatch cfg s batch) := by
  induction batch generalizing s with
  | nil => exact h
  | cons af t ih =>
    exact ih (stepEvent cfg s af) (fun x hx => hk x (List.mem_cons_of_mem af hx))
      (wfinv_stepEvent cfg s af (hk af (List.mem_cons_self af t)) h)

/-- C4: starting from a well-formed state whose aggregate counters satisfy
the size invariant, processing any batch made of Added, Modified and
Removed events preserves the invariant: `totalDirSize` equals the sum of
the sizes of all items in the store and `fileSelectionSize` the sum of the
sizes of the currently selected items; every size mutation inside the
batch updates the counters together with the mutation. -/
theorem counters_invariant_after_batch (cfg : Config) (s : State)
    (batch : List AlteredFile)
    (hwf : WF s) (hinv : SizeInvariant s)
    (hk : ∀ af ∈ batch, isAMR af.dwAction = true) :
    SizeInvariant (processBatch cfg s batch) :=
  (wfinv_processBatch cfg batch s hk ⟨hwf, hinv⟩).2

theorem counters_invariant_after_batch_witness :
    WF modTestState ∧ SizeInvariant modTestState ∧
    (∀ af ∈ ([⟨"g", .added (some 3), 0⟩, ⟨"f", .modified (some 5), 0⟩,
        ⟨"g", .removed, 0⟩] : List AlteredFile), isAMR af.dwAction = true) ∧
    SizeInvariant (processBatch cfg0 modTestState
      [⟨"g", .added (some 3), 0⟩, ⟨"f", .modified (some 5), 0⟩,
        ⟨"g", .removed, 0⟩]) :=
  ⟨by decide, by decide, by decide,
    counters_invariant_after_batch cfg0 modTestState
      [⟨"g", .added (some 3), 0⟩, ⟨"f", .modified (some 5), 0⟩,
        ⟨"g", .removed, 0⟩] (by decide) (by decide) (by decide)⟩

theorem mem_of_lookupItem (m : List (Nat × Item)) (k : Nat) (it : Item)
    (h : lookupItem m k = some it) : (k, it) ∈ m := by
  unfold lookupItem at h
  cases hf : m.find? (fun p => p.1 == k) with
  | none =>
    rw [hf] at h
    cases h
  | some p =>
    rw [hf] at h
    have h2 : p.2 = it := by injection h
    have h1 : p.1 = k := by simpa using List.find?_some hf
    have hp : p ∈ m := List.mem_of_find?_eq_some hf
    rw [← h1, ← h2]
    simpa using hp

theorem stepEvent_eq_apply (cfg : Config) (s : State) (af : AlteredFile)
    (h : af.iFolderIndex = s.uniqueFolderId) :
    stepEvent cfg s af = applyAction cfg s af.szFileName af.dwAction := by
  unfold stepEvent
  rw [if_pos (beq_iff_eq.mpr h)]

/-- C6: modify-before-insert. From a well-formed state with no item named
`f`, an `Added("f")` that resolves with size `sz1` followed in the same
batch by a `Modified("f")` whose re-stat observes size `sz2` leaves the
item stored with the size observed at `Modified` resolution time, and the
total-size counter reflects exactly one addition of that final size. -/
theorem modify_before_insert (cfg : Config) (s : State) (sz1 sz2 : Nat)
    (hwf : WF s)
    (hfresh : ∀ p ∈ s.itemInfoMap, p.2.name ≠ "f") :
    lookupItem (processBatch cfg s
        [⟨"f", .added (some sz1), s.uniqueFolderId⟩,
         ⟨"f", .modified (some sz2), s.uniqueFolderId⟩]).itemInfoMap s.nextId =
      some (Item.mk "f" sz2) ∧
    (processBatch cfg s
        [⟨"f", .added (some sz1), s.uniqueFolderId⟩,
         ⟨"f", .modified (some sz2), s.uniqueFolderId⟩]).totalDirSize =
      s.totalDirSize + (sz2 : Int) := by
  obtain ⟨hknd, hlnd, hback, hawn, hkf, hlf⟩ := hwf
  have hlookup_n :
      lookupItem (s.itemInfoMap ++ [(s.nextId, Item.mk "f" sz1)]) s.nextId =
        some (Item.mk "f" sz1) :=
    lookupItem_append_self _ _ _ (lookupItem_eq_none_of_lt _ _ hkf)
  have hfind_lv : s.listView.find?
      (fun e => (lookupItem (s.itemInfoMap ++ [(s.nextId, Item.mk "f" sz1)]) e.id).map
        Item.name == some "f") = none := by
    rw [List.find?_eq_none]
    intro e he hpred
    rw [lookupItem_append_ne _ _ _ _ (Nat.ne_of_lt (hlf e he))] at hpred
    obtain ⟨it, hit⟩ := Option.isSome_iff_exists.mp (hback e he)
    rw [hit] at hpred
    have hname : it.name = "f" := by simpa using hpred
    exact hfresh (e.id, it) (mem_of_lookupItem _ _ _ hit) hname
  have hfind : locateFileItemIndex (s.itemInfoMap ++ [(s.nextId, Item.mk "f" sz1)])
      (s.listView ++ [LVEntry.mk s.nextId false]) "f" =
      some (LVEntry.mk s.nextId false) := by
    unfold locateFileItemIndex
    rw [List.find?_append, hfind_lv, Option.none_or]
    rw [List.find?_cons_of_pos]
    show ((lookupItem (s.itemInfoMap ++ [(s.nextId, Item.mk "f" sz1)])
      (LVEntry.mk s.nextId false).id).map Item.name == some "f") = true
    rw [hlookup_n]
    rfl
  have hrun : processBatch cfg s
      [⟨"f", .added (some sz1), s.uniqueFolderId⟩,
       ⟨"f", .modified (some sz2), s.uniqueFolderId⟩] =
      OnFileModified (OnFileAdded s "f" (some sz1)) "f" (some sz2) := by
    show stepEvent cfg (stepEvent cfg s ⟨"f", .added (some sz1), s.uniqueFolderId⟩)
      ⟨"f", .modified (some sz2), s.uniqueFolderId⟩ = _
    rw [stepEvent_eq_apply cfg s _ rfl]
    rw [stepEvent_eq_apply cfg _ _ rfl]
    rfl
  have hadd : OnFileAdded s "f" (some sz1) =
      { s with
        itemInfoMap := s.itemInfoMap ++ [(s.nextId, Item.mk "f" sz1)]
        awaitingAddList := []
        listView := s.listView ++ [LVEntry.mk s.nextId false]
        totalDirSize := s.totalDirSize + (sz1 : Int)
        nextId := s.nextId + 1 } := by
    simp only [OnFileAdded, InsertAwaitingItems, AddItemInternal, hawn]
    rfl
  have hfmt : findModTarget
      { s with
        itemInfoMap := s.itemInfoMap ++ [(s.nextId, Item.mk "f" sz1)]
        awaitingAddList := []
        listView := s.listView ++ [LVEntry.mk s.nextId false]
        totalDirSize := s.totalDirSize + (sz1 : Int)
        nextId := s.nextId + 1 } "f" = some (s.nextId, false) := by
    unfold findModTarget
    rw [hfind]
  have hmod : OnFileModified
      { s with
        itemInfoMap := s.itemInfoMap ++ [(s.nextId, Item.mk "f" sz1)]
        awaitingAddList := []
        listView := s.listView ++ [LVEntry.mk s.nextId false]
        totalDirSize := s.totalDirSize + (sz1 : Int)
        nextId := s.nextId + 1 } "f" (some sz2) =
      { s with
        itemInfoMap := setItem (s.itemInfoMap ++ [(s.nextId, Item.mk "f" sz1)])
          s.nextId (Item.mk "f" sz2)
        awaitingAddList := []
        listView := s.listView ++ [LVEntry.mk s.nextId false]
        totalDirSize := s.totalDirSize + (sz1 : Int) - (sz1 : Int) + (sz2 : Int)
        nextId := s.nextId + 1 } := by
    simp only [OnFileModified, hfmt, hlookup_n, Bool.false_eq_true, if_false]
  rw [hrun, hadd, hmod]
  constructor
  · exact lookupItem_setItem_self _ _ _ (by rw [hlookup_n]; rfl)
  · show s.totalDirSize + (sz1 : Int) - (sz1 : Int) + (sz2 : Int) =
      s.totalDirSize + (sz2 : Int)
    ring

theorem modify_before_insert_witness :
    WF initialState ∧
    (∀ p ∈ initialState.itemInfoMap, p.2.name ≠ "f") ∧
    (lookupItem (processBatch cfg0 initialState
        [⟨"f", .added (some 3), initialState.uniqueFolderId⟩,
         ⟨"f", .modified (some 7), initialState.uniqueFolderId⟩]).itemInfoMap
        initialState.nextId = some (Item.mk "f" 7) ∧
     (processBatch cfg0 initialState
        [⟨"f", .added (some 3), initialState.uniqueFolderId⟩,
         ⟨"f", .modified (some 7), initialState.uniqueFolderId⟩]).totalDirSize =
       initialState.totalDirSize + ((7 : Nat) : Int)) :=
  ⟨by decide, by decide,
    modify_before_insert cfg0 initialState 3 7 (by decide) (by decide)⟩

theorem selectEntry_cons (a : LVEntry) (l : List LVEntry) (id : Nat) :
    selectEntry (a :: l) id =
      (if a.id == id then LVEntry.mk a.id true else a) :: selectEntry l id := by
  unfold selectEntry
  rw [List.map_cons]

theorem locate_selectEntry_id (m : List (Nat × Item)) (lv : List LVEntry)
    (id : Nat) (n : String) :
    (locateFileItemIndex m (selectEntry lv id) n).map LVEntry.id =
      (locateFileItemIndex m lv n).map LVEntry.id := by
  induction lv with
  | nil => rfl
  | cons a l ih =>
    rw [selectEntry_cons]
    unfold locateFileItemIndex at ih ⊢
    by_cases ha : (a.id == id) = true
    · rw [if_pos ha]
      by_cases hp : ((lookupItem m a.id).map Item.name == some n) = true
      · have hp' : ((lookupItem m (LVEntry.mk a.id true).id).map Item.name ==
            some n) = true := hp
        rw [List.find?_cons_of_pos
            (p := fun (e : LVEntry) => (lookupItem m e.id).map Item.name == some n)
            _ hp',
          List.find?_cons_of_pos
            (p := fun (e : LVEntry) => (lookupItem m e.id).map Item.name == some n)
            _ hp]
        rfl
      · have hp' : ¬ ((lookupItem m (LVEntry.mk a.id true).id).map Item.name ==
            some n) = true := hp
        rw [List.find?_cons_of_neg
            (p := fun (e : LVEntry) => (lookupItem m e.id).map Item.name == some n)
            _ hp',
          List.find?_cons_of_neg
            (p := fun (e : LVEntry) => (lookupItem m e.id).map Item.name == some n)
            _ hp]
        exact ih
    · rw [if_neg ha]
      by_cases hp : ((lookupItem m a.id).map Item.name == some n) = true
      · rw [List.find?_cons_of_pos
            (p := fun (e : LVEntry) => (lookupItem m e.id).map Item.name == some n)
            _ hp,
          List.find?_cons_of_pos
            (p := fun (e : LVEntry) => (lookupItem m e.id).map Item.name == some n)
            _ hp]
      · rw [List.find?_cons_of_neg
            (p := fun (e : LVEntry) => (lookupItem m e.id).map Item.name == some n)
            _ hp,
          List.find?_cons_of_neg
            (p := fun (e : LVEntry) => (lookupItem m e.id).map Item.name == some n)
            _ hp]
        exact ih

theorem drain_general (m : List (Nat × Item)) (sel : List String) :
    ∀ (lv : List LVEntry) (b : Bool),
      (drainSelectionList m lv b sel).pending =
        sel.filter (fun n => (locateFileItemIndex m lv n).isNone) ∧
      (drainSelectionList m lv b sel).calls.map SelectCall.id =
        sel.filterMap (fun n => (locateFileItemIndex m lv n).map LVEntry.id) ∧
      (drainSelectionList m lv b sel).calls.map SelectCall.focus =
        (if b then
          List.replicate (drainSelectionList m lv b sel).calls.length false
         else focusPattern (drainSelectionList m lv b sel).calls.length) := by
  induction sel with
  | nil =>
    intro lv b
    refine ⟨rfl, rfl, ?_⟩
    cases b <;> rfl
  | cons n rest ih =>
    intro lv b
    cases hl : locateFileItemIndex m lv n with
    | some e =>
      have hd : drainSelectionList m lv b (n :: rest) =
          ⟨(drainSelectionList m (selectEntry lv e.id) true rest).pending,
           (drainSelectionList m (selectEntry lv e.id) true rest).lv,
           ⟨e.id, !b⟩ ::
             (drainSelectionList m (selectEntry lv e.id) true rest).calls,
           (if e.selected then (0 : Int)
            else ((((lookupItem m e.id).map Item.size).getD 0 : Nat) : Int)) +
             (drainSelectionList m (selectEntry lv e.id) true rest).selDelta⟩ := by
        simp only [drainSelectionList]
        rw [hl]
      obtain ⟨hp, hc, hf⟩ := ih (selectEntry lv e.id) true
      have hresolve : ∀ n',
          (locateFileItemIndex m (selectEntry lv e.id) n').map LVEntry.id =
            (locateFileItemIndex m lv n').map LVEntry.id :=
        fun n' => locate_selectEntry_id m lv e.id n'
      have hisnone : ∀ n',
          (locateFileItemIndex m (selectEntry lv e.id) n').isNone =
            (locateFileItemIndex m lv n').isNone := by
        intro n'
        have h' := hresolve n'
        cases h1 : locateFileItemIndex m (selectEntry lv e.id) n' <;>
          cases h2 : locateFileItemIndex m lv n' <;>
          simp [h1, h2] at h' ⊢
      refine ⟨?_, ?_, ?_⟩
      · rw [hd]
        show (drainSelectionList m (selectEntry lv e.id) true rest).pending = _
        rw [hp, funext hisnone]
        have hnone : ((locateFileItemIndex m lv n).isNone) = false := by
          rw [hl]
          rfl
        rw [List.filter_cons_of_neg
            (p := fun s => (locateFileItemIndex m lv s).isNone) (by simp [hnone])]
      · rw [hd]
        show SelectCall.id ⟨e.id, !b⟩ ::
            (drainSelectionList m (selectEntry lv e.id) true rest).calls.map
              SelectCall.id = _
        rw [hc, funext hresolve, List.filterMap_cons]
        rw [hl]
        rfl
      · rw [hd]
        show SelectCall.focus ⟨e.id, !b⟩ ::
            (drainSelectionList m (selectEntry lv e.id) true rest).calls.map
              SelectCall.focus = _
        rw [hf]
        rw [if_pos rfl]
        cases b with
        | true =>
          show false :: List.replicate _ false = _
          rw [if_pos rfl]
          show _ = List.replicate (_ + 1) false
          rw [List.replicate_succ]
        | false =>
          show true :: List.replicate _ false = _
          rfl
    | none =>
      have hd : drainSelectionList m lv b (n :: rest) =
          ⟨n :: (drainSelectionList m lv b rest).pending,
           (drainSelectionList m lv b rest).lv,
           (drainSelectionList m lv b rest).calls,
           (drainSelectionList m lv b rest).selDelta⟩ := by
        simp only [drainSelectionList]
        rw [hl]
      obtain ⟨hp, hc, hf⟩ := ih lv b
      refine ⟨?_, ?_, ?_⟩
      · rw [hd]
        show n :: (drainSelectionList m lv b rest).pending = _
        rw [hp]
        have hnone : ((locateFileItemIndex m lv n).isNone) = true := by
          rw [hl]
          rfl
        rw [List.filter_cons_of_pos
            (p := fun s => (locateFileItemIndex m lv s).isNone) hnone]
      · rw [hd]
        show (drainSelectionList m lv b rest).calls.map SelectCall.id = _
        rw [hc, List.filterMap_cons, hl]
        rfl
      · rw [hd]
        exact hf

/-- C10: after a batch, the selection drain resolves the file-selection
list against the updated presentation state: the names kept pending are
exactly those that do not resolve, each resolving name produces exactly
one select call (in list order, on the row it resolves to), and the focus
flag pattern places the focus on the first call only, so at most one row
is focused — in particular a single name that resolves after its item is
inserted yields exactly one select call with focus set. -/
theorem selection_drain_spec (cfg : Config) (s : State) (batch : List AlteredFile) :
    (DirectoryAltered cfg s batch).1.fileSelectionList =
      (processBatch cfg s batch).fileSelectionList.filter
        (fun n => (locateFileItemIndex (processBatch cfg s batch).itemInfoMap
          (processBatch cfg s batch).listView n).isNone) ∧
    (DirectoryAltered cfg s batch).2.map SelectCall.id =
      (processBatch cfg s batch).fileSelectionList.filterMap
        (fun n => (locateFileItemIndex (processBatch cfg s batch).itemInfoMap
          (processBatch cfg s batch).listView n).map LVEntry.id) ∧
    (DirectoryAltered cfg s batch).2.map SelectCall.focus =
      focusPattern (DirectoryAltered cfg s batch).2.length := by
  obtain ⟨hp, hc, hf⟩ := drain_general (processBatch cfg s batch).itemInfoMap
    (processBatch cfg s batch).fileSelectionList
    (processBatch cfg s batch).listView false
  exact ⟨hp, hc, hf⟩
